import Mathlib

/-!
Verification of the sparse-matrix product kernels of `src/sparse/prod.rs`.

The compressed-matrix container (`CsMat`), its outer iterator, the sparse
intersection merge (`nnz_zip`) and `append_outer` live outside the sources
under verification; they are modelled here from the specification of the
collaborator interface (spec §2, §3, §6).  The three kernels
`mul_acc_mat_vec_csc`, `mul_acc_mat_vec_csr` and `csr_mul_csr` are
translated directly from `src/sparse/prod.rs`; run-time `assert!` failures
are modelled by returning `none`.
-/

namespace SprsProd

/-- Modelled from the spec: the storage-order tag of a compressed matrix
(row-major `CSR` or column-major `CSC`), spec §3. -/
inductive CompressedStorage where
  | CSC
  | CSR
deriving DecidableEq

open CompressedStorage

/-- Modelled from the spec: the compressed two-array matrix container
(`CsMat` of the external collaborator, spec §3): an outer-pointer array of
length `outerDim + 1`, an inner-index array with one entry per nonzero, a
value array of the same length, dimensions and a storage-order tag. -/
structure CsMat (α : Type) where
  storage : CompressedStorage
  nrows : Nat
  ncols : Nat
  indptr : List Nat
  indices : List Nat
  data : List α
deriving DecidableEq

variable {α : Type}

def CsMat.rows (m : CsMat α) : Nat := m.nrows

def CsMat.cols (m : CsMat α) : Nat := m.ncols

def CsMat.storage_type (m : CsMat α) : CompressedStorage := m.storage

/-- Outer dimension: rows for row-major storage, columns for column-major
(spec glossary). -/
def CsMat.outerDim (m : CsMat α) : Nat :=
  match m.storage with
  | CSR => m.nrows
  | CSC => m.ncols

/-- Inner dimension: the dimension not addressed by the outer pointers. -/
def CsMat.innerDim (m : CsMat α) : Nat :=
  match m.storage with
  | CSR => m.ncols
  | CSC => m.nrows

/-- Modelled from the spec: the inner sparse vector of outer index `i` —
the `(inner-index, value)` pairs stored in the half-open range
`[indptr[i], indptr[i+1])` of the index/value arrays (spec §3). -/
def CsMat.outerVec (m : CsMat α) (i : Nat) : List (Nat × α) :=
  ((m.indices.zip m.data).drop (m.indptr.getD i 0)).take
    (m.indptr.getD (i + 1) 0 - m.indptr.getD i 0)

/-- Modelled from the spec: `outer_iterator()` yields the pairs
`(outer index, inner sparse vector)` in ascending outer-index order
(spec §6). -/
def CsMat.outerIterator (m : CsMat α) : List (Nat × List (Nat × α)) :=
  (List.range m.outerDim).map (fun i => (i, m.outerVec i))

/-- Modelled from the spec: the structural invariants of a compressed
matrix (spec §3): outer-pointer array of length `outerDim + 1` starting at
`0`, non-decreasing, with final entry equal to the nonzero count; parallel
index/value arrays; inner indices within bounds and strictly ascending
inside each outer slice. -/
def CsMat.valid (m : CsMat α) : Prop :=
  m.indptr.length = m.outerDim + 1 ∧
  m.indptr.getD 0 0 = 0 ∧
  m.indices.length = m.data.length ∧
  m.indptr.getD m.outerDim 0 = m.indices.length ∧
  (∀ i, i < m.outerDim → m.indptr.getD i 0 ≤ m.indptr.getD (i + 1) 0) ∧
  (∀ j, j ∈ m.indices → j < m.innerDim) ∧
  (∀ i, i < m.outerDim → List.Pairwise (· < ·) ((m.outerVec i).map Prod.fst))

instance (m : CsMat α) : Decidable m.valid :=
  inferInstanceAs (Decidable (m.indptr.length = m.outerDim + 1 ∧
    m.indptr.getD 0 0 = 0 ∧
    m.indices.length = m.data.length ∧
    m.indptr.getD m.outerDim 0 = m.indices.length ∧
    (∀ i, i < m.outerDim → m.indptr.getD i 0 ≤ m.indptr.getD (i + 1) 0) ∧
    (∀ j, j ∈ m.indices → j < m.innerDim) ∧
    (∀ i, i < m.outerDim → List.Pairwise (· < ·) ((m.outerVec i).map Prod.fst))))

/-- The mathematical entry at row `r`, column `c` of a compressed matrix:
the sum of the stored values at that position (a valid matrix stores at
most one). -/
def CsMat.entry [Ring α] (m : CsMat α) (r c : Nat) : α :=
  match m.storage with
  | CSR => (((m.outerVec r).filter (fun p => p.1 = c)).map Prod.snd).sum
  | CSC => (((m.outerVec c).filter (fun p => p.1 = r)).map Prod.snd).sum

/-- From the source (`mul_acc_mat_vec_csc`, loop body): for each column
`col_ind` with multiplier `in_vec[col_ind]`, for each stored `(row_ind,
value)` do `res_vec[row_ind] = res_vec[row_ind] + multiplier * value`. -/
def mulAccCscBody [Ring α] (mat : CsMat α) (in_vec res_vec : List α) : List α :=
  mat.outerIterator.foldl
    (fun res cv => cv.2.foldl
      (fun r p => r.set p.1 (r.getD p.1 0 + in_vec.getD cv.1 0 * p.2)) res)
    res_vec

/-- From the source: `mul_acc_mat_vec_csc` with its three `assert!`
preconditions; an assertion failure is modelled as `none`. -/
def mul_acc_mat_vec_csc [Ring α] (mat : CsMat α) (in_vec : List α)
    (res_vec : List α) : Option (List α) :=
  if mat.cols = in_vec.length then
    if mat.rows = res_vec.length then
      if mat.storage_type = CSC then
        some (mulAccCscBody mat in_vec res_vec)
      else none
    else none
  else none

/-- From the source (`mul_acc_mat_vec_csr`, loop body): for each row
`row_ind`, for each stored `(col_ind, value)` do
`res_vec[row_ind] = res_vec[row_ind] + in_vec[col_ind] * value`. -/
def mulAccCsrBody [Ring α] (mat : CsMat α) (in_vec res_vec : List α) : List α :=
  mat.outerIterator.foldl
    (fun res rv => rv.2.foldl
      (fun r p => r.set rv.1 (r.getD rv.1 0 + in_vec.getD p.1 0 * p.2)) res)
    res_vec

/-- From the source: `mul_acc_mat_vec_csr` with its three `assert!`
preconditions. -/
def mul_acc_mat_vec_csr [Ring α] (mat : CsMat α) (in_vec : List α)
    (res_vec : List α) : Option (List α) :=
  if mat.cols = in_vec.length then
    if mat.rows = res_vec.length then
      if mat.storage_type = CSR then
        some (mulAccCsrBody mat in_vec res_vec)
      else none
    else none
  else none

/-- Modelled from the spec: the sparse-vector merge primitive `nnz_zip`
(spec §2), written with an explicit fuel argument so that recursion is
structural (every step consumes at least one element of either list, so
`|xs| + |ys|` fuel is always enough). -/
def nnzZipFuel : Nat → List (Nat × α) → List (Nat × α) → List (Nat × α × α)
  | 0, _, _ => []
  | _ + 1, [], _ => []
  | _ + 1, _ :: _, [] => []
  | fuel + 1, (i, a) :: xs, (j, b) :: ys =>
    if i < j then nnzZipFuel fuel xs ((j, b) :: ys)
    else if j < i then nnzZipFuel fuel ((i, a) :: xs) ys
    else (i, a, b) :: nnzZipFuel fuel xs ys

/-- Modelled from the spec: the sparse-vector merge primitive `nnz_zip`
(spec §2): the ordered `(index, left value, right value)` triples for the
indices present in both ascending-sorted inputs. -/
def nnzZip (xs ys : List (Nat × α)) : List (Nat × α × α) :=
  nnzZipFuel (xs.length + ys.length) xs ys

/-- Workspace compression (spec glossary): the `(index, value)` pairs of
the occupied slots, in ascending index order; `i` is the index of the
first slot. -/
def compressFrom : Nat → List (Option α) → List (Nat × α)
  | _, [] => []
  | i, none :: t => compressFrom (i + 1) t
  | i, some v :: t => (i, v) :: compressFrom (i + 1) t

def compressRow (ws : List (Option α)) : List (Nat × α) :=
  compressFrom 0 ws

/-- Modelled from the spec: `CsMat::empty(storage, inner_dim)` — a matrix
with zero outer slices (spec §6). -/
def CsMat.empty (st : CompressedStorage) (innerDim : Nat) : CsMat α :=
  match st with
  | CSR => ⟨CSR, 0, innerDim, [0], [], []⟩
  | CSC => ⟨CSC, innerDim, 0, [0], [], []⟩

/-- Modelled from the spec: `append_outer` — appends the compressed
contents of a dense optional-slot row as one new outer slice (spec §6,
glossary "workspace compression"). -/
def CsMat.appendOuter (m : CsMat α) (row : List (Option α)) : CsMat α :=
  let comp := compressRow row
  { storage := m.storage
    nrows := match m.storage with | CSR => m.nrows + 1 | CSC => m.nrows
    ncols := match m.storage with | CSR => m.ncols | CSC => m.ncols + 1
    indptr := m.indptr ++ [m.indices.length + comp.length]
    indices := m.indices ++ comp.map Prod.fst
    data := m.data ++ comp.map Prod.snd }

/-- From the source (`csr_mul_csr`, inner accumulation step): for a merge
triple `(col_ind, lval, rval)`, set workspace slot `col_ind` to
`lval * rval` if it is empty, else add `lval * rval` to it. -/
def wsStep [Ring α] (ws : List (Option α)) (t : Nat × α × α) : List (Option α) :=
  match ws.getD t.1 none with
  | none => ws.set t.1 (some (t.2.1 * t.2.2))
  | some acc => ws.set t.1 (some (acc + t.2.1 * t.2.2))

/-- From the source (`csr_mul_csr`, per-row accumulation): reset every
workspace slot to `None`, then for every outer slice of `rhs` merge it
with the current left row `lvec` and accumulate the products. -/
def csrRowAcc [Ring α] (rhs : CsMat α) (lvec : List (Nat × α)) (n : Nat) :
    List (Option α) :=
  rhs.outerIterator.foldl
    (fun ws rv => (nnzZip lvec rv.2).foldl wsStep ws)
    (List.replicate n none)

/-- From the source (`csr_mul_csr`, main loop): starting from an empty
matrix and the caller's workspace, for every row of `lhs` compute that
row's accumulated workspace and append its compressed contents to the
result. -/
def csrMulFold [Ring α] (lhs rhs : CsMat α) (workspace : List (Option α)) :
    CsMat α × List (Option α) :=
  lhs.outerIterator.foldl
    (fun acc lv =>
      let ws1 := csrRowAcc rhs lv.2 workspace.length
      (acc.1.appendOuter ws1, ws1))
    (CsMat.empty lhs.storage_type rhs.cols, workspace)

/-- From the source: `csr_mul_csr` with its four leading `assert_eq!`
preconditions and the trailing `assert_eq!(res_rows, res.rows())`; the
returned pair is (result matrix, final workspace state), since the Rust
function mutates the caller's workspace in place. -/
def csr_mul_csr [Ring α] (lhs rhs : CsMat α) (workspace : List (Option α)) :
    Option (CsMat α × List (Option α)) :=
  if lhs.cols = rhs.rows then
    if rhs.cols = workspace.length then
      if lhs.storage_type = rhs.storage_type then
        if CSR = rhs.storage_type then
          let res := csrMulFold lhs rhs workspace
          if lhs.rows = res.1.rows then some res else none
        else none
      else none
    else none
  else none

/-- The result matrix built by appending a list of accumulated rows to an
empty row-major matrix, as `csr_mul_csr`'s loop does. -/
def buildRows [Ring α] (cols : Nat) (rows : List (List (Option α))) : CsMat α :=
  rows.foldl CsMat.appendOuter (CsMat.empty CSR cols)

/-- The per-row accumulated workspaces of `csr_mul_csr`, one per row of
the left operand. -/
def csrRowsList [Ring α] (lhs rhs : CsMat α) (n : Nat) :
    List (List (Option α)) :=
  (List.range lhs.outerDim).map (fun i => csrRowAcc rhs (lhs.outerVec i) n)

/-- The standard mathematical matrix-product entry
`(L * R)[i, j] = sum over k of L[i, k] * R[k, j]` (spec §4.3). -/
def matProdEntry [Ring α] (lhs rhs : CsMat α) (i j : Nat) : α :=
  ((List.range lhs.cols).map (fun k => lhs.entry i k * rhs.entry k j)).sum

/-- Generic scatter-accumulate: apply a list of `(index, contribution)`
updates to a dense buffer, adding each contribution at its index. -/
def scatterAcc [Ring α] (ups : List (Nat × α)) (res : List α) : List α :=
  ups.foldl (fun r p => r.set p.1 (r.getD p.1 0 + p.2)) res

/-- The contributions of an update list to a single slot `r`. -/
def sumAt [Ring α] (ups : List (Nat × α)) (r : Nat) : α :=
  ((ups.filter (fun p => p.1 = r)).map Prod.snd).sum

/-- The flattened `(output index, contribution)` updates performed by the
column-major kernel, in execution order. -/
def cscUpdates [Ring α] (mat : CsMat α) (v : List α) : List (Nat × α) :=
  mat.outerIterator.flatMap
    (fun cv => cv.2.map (fun p => (p.1, v.getD cv.1 0 * p.2)))

/-- The flattened `(output index, contribution)` updates performed by the
row-major kernel, in execution order. -/
def csrUpdates [Ring α] (mat : CsMat α) (v : List α) : List (Nat × α) :=
  mat.outerIterator.flatMap
    (fun rv => rv.2.map (fun p => (rv.1, v.getD p.1 0 * p.2)))

/-! ### Concrete instances used as witnesses and counterexamples -/

/-- A 2 × 2 column-major matrix storing `diag(3, 5)`. -/
def exCsc : CsMat Int := ⟨CSC, 2, 2, [0, 1, 2], [0, 1], [3, 5]⟩

/-- A 2 × 2 row-major matrix storing `diag(3, 5)`. -/
def exCsr : CsMat Int := ⟨CSR, 2, 2, [0, 1, 2], [0, 1], [3, 5]⟩

/-- A 2 × 2 column-major matrix with no stored nonzeros. -/
def exZeroCsc : CsMat Int := ⟨CSC, 2, 2, [0, 0, 0], [], []⟩

/-- A 2 × 2 row-major matrix with no stored nonzeros. -/
def exZeroCsr : CsMat Int := ⟨CSR, 2, 2, [0, 0, 0], [], []⟩

/-- A 2 × 2 row-major matrix whose only nonzero is a `1` at row 0,
column 1. -/
def exL : CsMat Int := ⟨CSR, 2, 2, [0, 1, 1], [1], [1]⟩

/-- A 2 × 2 row-major matrix whose only nonzero is a `1` at row 1,
column 0. -/
def exR : CsMat Int := ⟨CSR, 2, 2, [0, 0, 1], [0], [1]⟩

/-- A 1 × 1 row-major matrix storing the single entry `1`. -/
def exOne : CsMat Int := ⟨CSR, 1, 1, [0, 1], [0], [1]⟩

/-! ### Dense-buffer helper lemmas -/

theorem getD_set_self (l : List α) (i : Nat) (a d : α) (h : i < l.length) :
    (l.set i a).getD i d = a := by
  rw [List.getD_eq_getElem?_getD, List.getElem?_set_self h]
  rfl

theorem getD_set_ne (l : List α) {i j : Nat} (a d : α) (h : i ≠ j) :
    (l.set i a).getD j d = l.getD j d := by
  rw [List.getD_eq_getElem?_getD, List.getElem?_set_ne h,
    ← List.getD_eq_getElem?_getD]

/-! ### Scatter-accumulate lemmas -/

theorem scatterAcc_nil [Ring α] (res : List α) : scatterAcc [] res = res := rfl

theorem scatterAcc_cons [Ring α] (p : Nat × α) (t : List (Nat × α))
    (res : List α) :
    scatterAcc (p :: t) res = scatterAcc t (res.set p.1 (res.getD p.1 0 + p.2)) :=
  rfl

theorem scatterAcc_length [Ring α] (ups : List (Nat × α)) (res : List α) :
    (scatterAcc ups res).length = res.length := by
  induction ups generalizing res with
  | nil => rfl
  | cons p t ih => rw [scatterAcc_cons, ih, List.length_set]

theorem sumAt_nil [Ring α] (r : Nat) : sumAt ([] : List (Nat × α)) r = 0 := rfl

theorem sumAt_cons [Ring α] (p : Nat × α) (t : List (Nat × α)) (r : Nat) :
    sumAt (p :: t) r = (if p.1 = r then p.2 else 0) + sumAt t r := by
  unfold sumAt
  rw [List.filter_cons]
  by_cases h : p.1 = r
  · simp [h]
  · simp [h]

theorem sumAt_append [Ring α] (a b : List (Nat × α)) (r : Nat) :
    sumAt (a ++ b) r = sumAt a r + sumAt b r := by
  unfold sumAt
  rw [List.filter_append, List.map_append, List.sum_append]

theorem scatterAcc_getD [Ring α] (ups : List (Nat × α)) (res : List α)
    (r : Nat) (hr : r < res.length) :
    (scatterAcc ups res).getD r 0 = res.getD r 0 + sumAt ups r := by
  induction ups generalizing res with
  | nil => rw [scatterAcc_nil, sumAt_nil, add_zero]
  | cons p t ih =>
    rw [scatterAcc_cons, sumAt_cons]
    rw [ih _ (by rw [List.length_set]; exact hr)]
    by_cases h : p.1 = r
    · subst h
      rw [getD_set_self _ _ _ _ hr, if_pos rfl, add_assoc]
    · rw [getD_set_ne _ _ _ h, if_neg h, zero_add]

theorem scatterAcc_append [Ring α] (a b : List (Nat × α)) (res : List α) :
    scatterAcc (a ++ b) res = scatterAcc b (scatterAcc a res) := by
  unfold scatterAcc
  rw [List.foldl_append]

theorem scatterAcc_flatMap [Ring α] {β : Type} (l : List β)
    (g : β → List (Nat × α)) (res : List α) :
    scatterAcc (l.flatMap g) res = l.foldl (fun r x => scatterAcc (g x) r) res := by
  induction l generalizing res with
  | nil => rfl
  | cons x t ih =>
    rw [List.flatMap_cons, scatterAcc_append, List.foldl_cons, ih]

theorem sumAt_flatMap [Ring α] {β : Type} (l : List β)
    (g : β → List (Nat × α)) (r : Nat) :
    sumAt (l.flatMap g) r = (l.map (fun x => sumAt (g x) r)).sum := by
  induction l with
  | nil => rfl
  | cons x t ih =>
    rw [List.flatMap_cons, sumAt_append, List.map_cons, List.sum_cons, ih]

/-! ### Per-slice contribution lemmas -/

/-- The contribution of one column slice of the CSC kernel to output slot
`r`: the multiplier times the sum of that column's values stored at row `r`. -/
theorem sumAt_map_scale [Ring α] (vec : List (Nat × α)) (m : α) (r : Nat) :
    sumAt (vec.map (fun p => (p.1, m * p.2))) r =
      m * (((vec.filter (fun p => p.1 = r)).map Prod.snd).sum) := by
  unfold sumAt
  rw [List.filter_map, List.map_map]
  have hf : ((fun p => decide (p.1 = r)) ∘ fun p : Nat × α => (p.1, m * p.2)) =
      fun p : Nat × α => decide (p.1 = r) := rfl
  rw [hf]
  have hg : (Prod.snd ∘ fun p : Nat × α => (p.1, m * p.2)) =
      fun p : Nat × α => m * p.2 := rfl
  rw [hg, ← List.sum_map_mul_left]

/-- The contribution of one row slice of the CSR kernel to output slot
`r`: all of its updates target slot `i`, the row's own index. -/
theorem sumAt_map_row [Ring α] (vec : List (Nat × α)) (v : List α)
    (i r : Nat) :
    sumAt (vec.map (fun p => (i, v.getD p.1 0 * p.2))) r =
      if i = r then (vec.map (fun p => v.getD p.1 0 * p.2)).sum else 0 := by
  unfold sumAt
  rw [List.filter_map]
  by_cases h : i = r
  · subst h
    have hf : ((fun p => decide (p.1 = i)) ∘
        fun p : Nat × α => (i, v.getD p.1 0 * p.2)) = fun _ => true := by
      funext p
      simp
    rw [if_pos rfl, hf, List.filter_true, List.map_map]
    rfl
  · have hf : ((fun p => decide (p.1 = r)) ∘
        fun p : Nat × α => (i, v.getD p.1 0 * p.2)) = fun _ => false := by
      funext p
      simp [h]
    rw [if_neg h, hf, List.filter_false]
    rfl

/-- Summing an indicator-style function over `List.range n` picks out the
single index `k`. -/
theorem sum_range_pick [Ring α] {n k : Nat} (f : Nat → α) (hk : k < n) :
    ((List.range n).map (fun c => if k = c then f c else 0)).sum = f k := by
  induction n with
  | zero => exact absurd hk (Nat.not_lt_zero k)
  | succ m ih =>
    rw [List.range_succ, List.map_append, List.sum_append]
    rcases Nat.lt_succ_iff_lt_or_eq.mp hk with h | h
    · rw [ih h]
      have : k ≠ m := Nat.ne_of_lt h
      simp [this]
    · subst h
      have hz : ((List.range k).map (fun c => if k = c then f c else 0)) =
          (List.range k).map (fun _ => 0) := by
        apply List.map_congr_left
        intro c hc
        rw [List.mem_range] at hc
        rw [if_neg (Nat.ne_of_gt hc)]
      rw [hz]
      simp

theorem sum_range_pick' [Ring α] {n k : Nat} (f : Nat → α) (hk : k < n) :
    ((List.range n).map (fun c => if c = k then f c else 0)).sum = f k := by
  have h : ((List.range n).map (fun c => if c = k then f c else 0)) =
      (List.range n).map (fun c => if k = c then f c else 0) := by
    apply List.map_congr_left
    intro c _
    by_cases hc : c = k
    · subst hc
      simp
    · rw [if_neg hc, if_neg (fun h => hc h.symm)]
  rw [h, sum_range_pick f hk]

/-! ### The matrix-vector kernel bodies as scatter-accumulates -/

theorem mulAccCscBody_eq_scatter [Ring α] (mat : CsMat α) (v res : List α) :
    mulAccCscBody mat v res = scatterAcc (cscUpdates mat v) res := by
  unfold mulAccCscBody cscUpdates
  rw [scatterAcc_flatMap]
  congr 1
  funext r cv
  unfold scatterAcc
  rw [List.foldl_map]

theorem mulAccCsrBody_eq_scatter [Ring α] (mat : CsMat α) (v res : List α) :
    mulAccCsrBody mat v res = scatterAcc (csrUpdates mat v) res := by
  unfold mulAccCsrBody csrUpdates
  rw [scatterAcc_flatMap]
  congr 1
  funext r rv
  unfold scatterAcc
  rw [List.foldl_map]

theorem mulAccCscBody_length [Ring α] (mat : CsMat α) (v res : List α) :
    (mulAccCscBody mat v res).length = res.length := by
  rw [mulAccCscBody_eq_scatter, scatterAcc_length]

theorem mulAccCsrBody_length [Ring α] (mat : CsMat α) (v res : List α) :
    (mulAccCsrBody mat v res).length = res.length := by
  rw [mulAccCsrBody_eq_scatter, scatterAcc_length]

theorem outerDim_csc [Ring α] (mat : CsMat α) (hst : mat.storage = CSC) :
    mat.outerDim = mat.cols := by
  unfold CsMat.outerDim
  rw [hst]
  rfl

theorem outerDim_csr [Ring α] (mat : CsMat α) (hst : mat.storage = CSR) :
    mat.outerDim = mat.rows := by
  unfold CsMat.outerDim
  rw [hst]
  rfl

/-- Per-slot value of the column-major kernel body: the prior value plus
the sum over all columns of `input[c] * (stored value at row r, column c)`. -/
theorem mulAccCscBody_getD [Ring α] (mat : CsMat α) (v res : List α)
    (hst : mat.storage = CSC) (r : Nat) (hr : r < res.length) :
    (mulAccCscBody mat v res).getD r 0 =
      res.getD r 0 +
        ((List.range mat.cols).map (fun c => v.getD c 0 * mat.entry r c)).sum := by
  rw [mulAccCscBody_eq_scatter, scatterAcc_getD _ _ _ hr]
  congr 1
  unfold cscUpdates CsMat.outerIterator
  rw [sumAt_flatMap, List.map_map, outerDim_csc mat hst]
  congr 1
  apply List.map_congr_left
  intro c _
  show sumAt ((mat.outerVec c).map (fun p => (p.1, v.getD c 0 * p.2))) r = _
  rw [sumAt_map_scale]
  unfold CsMat.entry
  rw [hst]

/-- Per-slot value of the row-major kernel body: the prior value plus the
gather-dot of row `r` with the input vector; contributions from other rows
never touch slot `r`. -/
theorem mulAccCsrBody_getD [Ring α] (mat : CsMat α) (v res : List α)
    (hst : mat.storage = CSR) (hlen : res.length = mat.rows) (r : Nat)
    (hr : r < res.length) :
    (mulAccCsrBody mat v res).getD r 0 =
      res.getD r 0 + ((mat.outerVec r).map (fun p => v.getD p.1 0 * p.2)).sum := by
  rw [mulAccCsrBody_eq_scatter, scatterAcc_getD _ _ _ hr]
  congr 1
  unfold csrUpdates CsMat.outerIterator
  rw [sumAt_flatMap, List.map_map, outerDim_csr mat hst]
  have hmap : ((fun x => sumAt ((Prod.snd x).map
        (fun p => (x.1, v.getD p.1 0 * p.2))) r) ∘ fun i => (i, mat.outerVec i)) =
      fun i => if i = r then ((mat.outerVec i).map
        (fun p => v.getD p.1 0 * p.2)).sum else 0 := by
    funext i
    exact sumAt_map_row (mat.outerVec i) v i r
  rw [hmap]
  exact sum_range_pick' _ (hlen ▸ hr)

theorem innerDim_csr (mat : CsMat α) (hst : mat.storage = CSR) :
    mat.innerDim = mat.cols := by
  unfold CsMat.innerDim
  rw [hst]
  rfl

/-- Every pair stored in an outer slice comes from the inner-index and
value arrays. -/
theorem outerVec_mem_indices (m : CsMat α) (i : Nat) (p : Nat × α)
    (hp : p ∈ m.outerVec i) : p.1 ∈ m.indices := by
  unfold CsMat.outerVec at hp
  have h1 := List.mem_of_mem_drop (List.mem_of_mem_take hp)
  exact (List.of_mem_zip h1).1

/-- Regrouping a row's gather-dot by column index: summing
`v[c] * (values of the row at column c)` over all columns equals the
direct sum over the row's stored entries. -/
theorem row_regroup [Ring α] (l : List (Nat × α)) (v : List α) (C : Nat)
    (hb : ∀ p ∈ l, p.1 < C) :
    ((List.range C).map (fun c =>
      v.getD c 0 * ((l.filter (fun p => p.1 = c)).map Prod.snd).sum)).sum =
    (l.map (fun p => v.getD p.1 0 * p.2)).sum := by
  induction l with
  | nil => simp
  | cons p t ih =>
    have hp : p.1 < C := hb p (List.mem_cons_self p t)
    have ht : ∀ q ∈ t, q.1 < C := fun q hq => hb q (List.mem_cons_of_mem p hq)
    have hsplit : ((List.range C).map (fun c =>
        v.getD c 0 * (((p :: t).filter (fun q => q.1 = c)).map Prod.snd).sum)) =
        (List.range C).map (fun c =>
          (if p.1 = c then v.getD c 0 * p.2 else 0) +
            v.getD c 0 * ((t.filter (fun q => q.1 = c)).map Prod.snd).sum) := by
      apply List.map_congr_left
      intro c _
      rw [List.filter_cons]
      by_cases h : p.1 = c
      · simp [h, mul_add]
      · simp [h]
    rw [hsplit, List.sum_map_add, sum_range_pick _ hp, ih ht, List.map_cons,
      List.sum_cons]

/-- Entry form of the row-major kernel characterization: the row
gather-dot regrouped as a sum over all column indices. -/
theorem mulAccCsrBody_getD_entry [Ring α] (mat : CsMat α) (v res : List α)
    (hst : mat.storage = CSR) (hvalid : mat.valid) (hlen : res.length = mat.rows)
    (r : Nat) (hr : r < res.length) :
    (mulAccCsrBody mat v res).getD r 0 =
      res.getD r 0 +
        ((List.range mat.cols).map (fun c => v.getD c 0 * mat.entry r c)).sum := by
  rw [mulAccCsrBody_getD mat v res hst hlen r hr]
  congr 1
  have hb : ∀ p ∈ mat.outerVec r, p.1 < mat.cols := by
    intro p hp
    have h1 : p.1 ∈ mat.indices := outerVec_mem_indices mat r p hp
    have h2 := hvalid.2.2.2.2.2.1 p.1 h1
    rwa [innerDim_csr mat hst] at h2
  rw [← row_regroup (mat.outerVec r) v mat.cols hb]
  congr 1
  apply List.map_congr_left
  intro c _
  unfold CsMat.entry
  rw [hst]

/-! ### Kernel unfolding and buffer lemmas -/

theorem mul_acc_mat_vec_csc_eq_some [Ring α] (mat : CsMat α) (v res : List α)
    (h1 : mat.cols = v.length) (h2 : mat.rows = res.length)
    (h3 : mat.storage_type = CSC) :
    mul_acc_mat_vec_csc mat v res = some (mulAccCscBody mat v res) := by
  unfold mul_acc_mat_vec_csc
  rw [if_pos h1, if_pos h2, if_pos h3]

theorem mul_acc_mat_vec_csr_eq_some [Ring α] (mat : CsMat α) (v res : List α)
    (h1 : mat.cols = v.length) (h2 : mat.rows = res.length)
    (h3 : mat.storage_type = CSR) :
    mul_acc_mat_vec_csr mat v res = some (mulAccCsrBody mat v res) := by
  unfold mul_acc_mat_vec_csr
  rw [if_pos h1, if_pos h2, if_pos h3]

theorem getD_replicate_zero [Ring α] (n r : Nat) :
    (List.replicate n (0 : α)).getD r 0 = 0 := by
  rw [List.getD_eq_getElem?_getD, List.getElem?_replicate]
  by_cases h : r < n
  · rw [if_pos h]
    rfl
  · rw [if_neg h]
    rfl

/-- A matrix storing no nonzeros has only empty outer slices. -/
theorem outerVec_of_no_nnz (m : CsMat α) (hnz : m.indices = []) (i : Nat) :
    m.outerVec i = [] := by
  unfold CsMat.outerVec
  rw [hnz]
  simp

theorem cscUpdates_nil [Ring α] (mat : CsMat α) (v : List α)
    (hind : mat.indices = []) : cscUpdates mat v = [] := by
  apply List.flatMap_eq_nil_iff.mpr
  intro x hx
  unfold CsMat.outerIterator at hx
  rcases List.mem_map.mp hx with ⟨i, _, hi⟩
  rw [← hi, outerVec_of_no_nnz mat hind i]
  rfl

theorem csrUpdates_nil [Ring α] (mat : CsMat α) (v : List α)
    (hind : mat.indices = []) : csrUpdates mat v = [] := by
  apply List.flatMap_eq_nil_iff.mpr
  intro x hx
  unfold CsMat.outerIterator at hx
  rcases List.mem_map.mp hx with ⟨i, _, hi⟩
  rw [← hi, outerVec_of_no_nnz mat hind i]
  rfl

/-! ### Claim theorems: matrix-vector kernels -/

/-- C2: for every valid column-major matrix, conforming input vector and
output buffer, `mul_acc_mat_vec_csc` succeeds and accumulates
`output += matrix * input`: afterwards each `output[r]` equals its prior
value plus the sum over all columns `c` of `input[c]` times the value
stored at row `r` of column `c`. -/
theorem mul_acc_mat_vec_csc_correct [Ring α] (mat : CsMat α) (v res : List α)
    (_hvalid : mat.valid) (hst : mat.storage_type = CSC)
    (hv : mat.cols = v.length) (hres : mat.rows = res.length) :
    ∃ out, mul_acc_mat_vec_csc mat v res = some out ∧
      out.length = res.length ∧
      ∀ r, r < mat.rows →
        out.getD r 0 = res.getD r 0 +
          ((List.range mat.cols).map (fun c => v.getD c 0 * mat.entry r c)).sum :=
  ⟨mulAccCscBody mat v res,
    mul_acc_mat_vec_csc_eq_some mat v res hv hres hst,
    mulAccCscBody_length mat v res,
    fun r hr => mulAccCscBody_getD mat v res hst r (hres ▸ hr)⟩

/-- Witness for C2 at a concrete 2 × 2 column-major matrix. -/
theorem mul_acc_mat_vec_csc_correct_witness :
    ∃ out, mul_acc_mat_vec_csc exCsc [1, 2] [0, 0] = some out ∧
      out.length = ([0, 0] : List Int).length ∧
      ∀ r, r < exCsc.rows →
        out.getD r 0 = ([0, 0] : List Int).getD r 0 +
          ((List.range exCsc.cols).map
            (fun c => ([1, 2] : List Int).getD c 0 * exCsc.entry r c)).sum :=
  mul_acc_mat_vec_csc_correct exCsc [1, 2] [0, 0] (by decide) rfl rfl rfl

/-- C3: for every valid row-major matrix, conforming input vector and
output buffer, `mul_acc_mat_vec_csr` succeeds and accumulates
`output += matrix * input`: each `output[r]` is increased by the
gather-dot of row `r`'s stored entries with the input vector, and no
other row contributes to slot `r`. -/
theorem mul_acc_mat_vec_csr_correct [Ring α] (mat : CsMat α) (v res : List α)
    (_hvalid : mat.valid) (hst : mat.storage_type = CSR)
    (hv : mat.cols = v.length) (hres : mat.rows = res.length) :
    ∃ out, mul_acc_mat_vec_csr mat v res = some out ∧
      out.length = res.length ∧
      ∀ r, r < mat.rows →
        out.getD r 0 = res.getD r 0 +
          ((mat.outerVec r).map (fun p => v.getD p.1 0 * p.2)).sum :=
  ⟨mulAccCsrBody mat v res,
    mul_acc_mat_vec_csr_eq_some mat v res hv hres hst,
    mulAccCsrBody_length mat v res,
    fun r hr => mulAccCsrBody_getD mat v res hst hres.symm r (hres ▸ hr)⟩

/-- Witness for C3 at a concrete 2 × 2 row-major matrix. -/
theorem mul_acc_mat_vec_csr_correct_witness :
    ∃ out, mul_acc_mat_vec_csr exCsr [1, 2] [0, 0] = some out ∧
      out.length = ([0, 0] : List Int).length ∧
      ∀ r, r < exCsr.rows →
        out.getD r 0 = ([0, 0] : List Int).getD r 0 +
          ((exCsr.outerVec r).map
            (fun p => ([1, 2] : List Int).getD p.1 0 * p.2)).sum :=
  mul_acc_mat_vec_csr_correct exCsr [1, 2] [0, 0] (by decide) rfl rfl rfl

/-- C4: independently for each kernel, any call violating one of that
kernel's dimension or storage-order preconditions fails (modelled as
`none`) before performing any accumulation; no partial output is ever
produced. -/
theorem kernels_fail_fast_on_bad_dims [Ring α] :
    (∀ (mat : CsMat α) (v res : List α),
      ¬(mat.cols = v.length ∧ mat.rows = res.length ∧
          mat.storage_type = CSC) →
        mul_acc_mat_vec_csc mat v res = none) ∧
    (∀ (mat : CsMat α) (v res : List α),
      ¬(mat.cols = v.length ∧ mat.rows = res.length ∧
          mat.storage_type = CSR) →
        mul_acc_mat_vec_csr mat v res = none) ∧
    (∀ (lhs rhs : CsMat α) (ws : List (Option α)),
      ¬(lhs.cols = rhs.rows ∧ rhs.cols = ws.length ∧
          lhs.storage_type = rhs.storage_type ∧ CSR = rhs.storage_type) →
        csr_mul_csr lhs rhs ws = none) := by
  refine ⟨?_, ?_, ?_⟩
  · intro mat v res hcsc
    unfold mul_acc_mat_vec_csc
    split_ifs with h1 h2 h3
    · exact absurd ⟨h1, h2, h3⟩ hcsc
    all_goals rfl
  · intro mat v res hcsr
    unfold mul_acc_mat_vec_csr
    split_ifs with h1 h2 h3
    · exact absurd ⟨h1, h2, h3⟩ hcsr
    all_goals rfl
  · intro lhs rhs ws hmm
    unfold csr_mul_csr
    split_ifs with h1 h2 h3 h4
    · exact absurd ⟨h1, h2, h3, h4⟩ hmm
    all_goals rfl

/-- Witness for C4: a row-major matrix with agreeing dimensions passed to
the column-major kernel (storage-tag violation only), a column-major
matrix passed to the row-major kernel, and a matrix-matrix call with an
empty workspace. -/
theorem kernels_fail_fast_on_bad_dims_witness :
    mul_acc_mat_vec_csc exCsr [1, 2] [0, 0] = none ∧
    mul_acc_mat_vec_csr exCsc [1, 2] [0, 0] = none ∧
    csr_mul_csr exCsr exCsr ([] : List (Option Int)) = none :=
  ⟨(kernels_fail_fast_on_bad_dims (α := Int)).1 exCsr [1, 2] [0, 0]
      (by decide),
   (kernels_fail_fast_on_bad_dims (α := Int)).2.1 exCsc [1, 2] [0, 0]
      (by decide),
   (kernels_fail_fast_on_bad_dims (α := Int)).2.2 exCsr exCsr []
      (by decide)⟩

/-- C5: the row-major kernel on a valid CSR matrix and the column-major
kernel on a valid CSC matrix representing the same mathematical matrix
(the CSC-stored transpose of the representation, i.e. equal dimensions
and equal entries) agree when both start from identical zero-filled
output buffers. -/
theorem csr_csc_agree [Ring α] (m mc : CsMat α) (v : List α)
    (hm : m.valid) (_hmc : mc.valid)
    (hst : m.storage_type = CSR) (hstc : mc.storage_type = CSC)
    (hrows : mc.rows = m.rows) (hcols : mc.cols = m.cols)
    (hentry : ∀ r, r < m.rows → ∀ c, c < m.cols → mc.entry r c = m.entry r c)
    (hv : m.cols = v.length) :
    mul_acc_mat_vec_csr m v (List.replicate m.rows 0) =
      mul_acc_mat_vec_csc mc v (List.replicate m.rows 0) := by
  have hlen : (List.replicate m.rows (0 : α)).length = m.rows :=
    List.length_replicate _ _
  rw [mul_acc_mat_vec_csr_eq_some m v _ hv hlen.symm hst,
    mul_acc_mat_vec_csc_eq_some mc v _ (by rw [hcols, hv])
      (by rw [hlen, hrows]) hstc]
  congr 1
  apply List.ext_getElem
  · rw [mulAccCsrBody_length, mulAccCscBody_length]
  · intro n h1 h2
    rw [← List.getD_eq_getElem _ 0 h1, ← List.getD_eq_getElem _ 0 h2]
    have hn : n < (List.replicate m.rows (0 : α)).length := by
      rwa [mulAccCsrBody_length] at h1
    rw [mulAccCsrBody_getD_entry m v _ hst hm hlen n hn,
      mulAccCscBody_getD mc v _ hstc n hn]
    congr 1
    rw [hcols]
    congr 1
    apply List.map_congr_left
    intro c hc
    rw [hentry n (by rwa [hlen] at hn) c (List.mem_range.mp hc)]

/-- Witness for C5: `diag(3, 5)` stored row-major and column-major. -/
theorem csr_csc_agree_witness :
    mul_acc_mat_vec_csr exCsr [1, 2] (List.replicate exCsr.rows 0) =
      mul_acc_mat_vec_csc exCsc [1, 2] (List.replicate exCsr.rows 0) :=
  csr_csc_agree exCsr exCsc [1, 2] (by decide) (by decide) rfl rfl rfl rfl
    (by decide) rfl

/-- C6: running a matrix-vector kernel twice with the same matrix and
vector, accumulating into the same buffer that started zero-filled,
leaves every output entry at twice its value after the first call. -/
theorem mul_acc_twice_doubles [Ring α] (mat : CsMat α) (v out1 : List α)
    (_hvalid : mat.valid) (hv : mat.cols = v.length) :
    ((mat.storage_type = CSC ∧
        mul_acc_mat_vec_csc mat v (List.replicate mat.rows 0) = some out1) →
      ∃ out2, mul_acc_mat_vec_csc mat v out1 = some out2 ∧
        out2.length = out1.length ∧
        ∀ r, r < out1.length → out2.getD r 0 = 2 * out1.getD r 0) ∧
    ((mat.storage_type = CSR ∧
        mul_acc_mat_vec_csr mat v (List.replicate mat.rows 0) = some out1) →
      ∃ out2, mul_acc_mat_vec_csr mat v out1 = some out2 ∧
        out2.length = out1.length ∧
        ∀ r, r < out1.length → out2.getD r 0 = 2 * out1.getD r 0) := by
  have hlen : (List.replicate mat.rows (0 : α)).length = mat.rows :=
    List.length_replicate _ _
  constructor
  · rintro ⟨hst, hcall⟩
    rw [mul_acc_mat_vec_csc_eq_some mat v _ hv hlen.symm hst] at hcall
    have hout1 : out1 = mulAccCscBody mat v (List.replicate mat.rows 0) :=
      (Option.some.inj hcall).symm
    have hlen1 : out1.length = mat.rows := by
      rw [hout1, mulAccCscBody_length, hlen]
    refine ⟨mulAccCscBody mat v out1,
      mul_acc_mat_vec_csc_eq_some mat v out1 hv hlen1.symm hst,
      mulAccCscBody_length mat v out1, ?_⟩
    intro r hr
    have hfirst : out1.getD r 0 =
        ((List.range mat.cols).map (fun c => v.getD c 0 * mat.entry r c)).sum := by
      rw [hout1, mulAccCscBody_getD mat v _ hst r (by rw [hlen, ← hlen1]; exact hr),
        getD_replicate_zero, zero_add]
    rw [mulAccCscBody_getD mat v out1 hst r hr, ← hfirst, two_mul]
  · rintro ⟨hst, hcall⟩
    rw [mul_acc_mat_vec_csr_eq_some mat v _ hv hlen.symm hst] at hcall
    have hout1 : out1 = mulAccCsrBody mat v (List.replicate mat.rows 0) :=
      (Option.some.inj hcall).symm
    have hlen1 : out1.length = mat.rows := by
      rw [hout1, mulAccCsrBody_length, hlen]
    refine ⟨mulAccCsrBody mat v out1,
      mul_acc_mat_vec_csr_eq_some mat v out1 hv hlen1.symm hst,
      mulAccCsrBody_length mat v out1, ?_⟩
    intro r hr
    have hfirst : out1.getD r 0 =
        ((mat.outerVec r).map (fun p => v.getD p.1 0 * p.2)).sum := by
      rw [hout1, mulAccCsrBody_getD mat v _ hst hlen r
        (by rw [hlen, ← hlen1]; exact hr), getD_replicate_zero, zero_add]
    rw [mulAccCsrBody_getD mat v out1 hst hlen1 r hr, ← hfirst, two_mul]

/-- Witness for C6: the column-major kernel on `diag(3, 5)` with input
`[1, 2]` produces `[3, 10]`, and a second accumulating call doubles it. -/
theorem mul_acc_twice_doubles_witness :
    ∃ out2, mul_acc_mat_vec_csc exCsc [1, 2] [3, 10] = some out2 ∧
      out2.length = ([3, 10] : List Int).length ∧
      ∀ r, r < ([3, 10] : List Int).length →
        out2.getD r 0 = 2 * ([3, 10] : List Int).getD r 0 :=
  (mul_acc_twice_doubles exCsc [1, 2] [3, 10] (by decide) rfl).1
    ⟨rfl, by decide⟩

/-- C7: a valid matrix with zero stored nonzeros leaves the output buffer
exactly as it was, for both matrix-vector kernels. -/
theorem zero_matrix_leaves_output [Ring α] (mat : CsMat α) (v res : List α)
    (_hvalid : mat.valid) (hind : mat.indices = []) (_hdat : mat.data = [])
    (hv : mat.cols = v.length) (hres : mat.rows = res.length) :
    (mat.storage_type = CSC → mul_acc_mat_vec_csc mat v res = some res) ∧
    (mat.storage_type = CSR → mul_acc_mat_vec_csr mat v res = some res) := by
  constructor
  · intro hst
    rw [mul_acc_mat_vec_csc_eq_some mat v res hv hres hst]
    rw [mulAccCscBody_eq_scatter, cscUpdates_nil mat v hind, scatterAcc_nil]
  · intro hst
    rw [mul_acc_mat_vec_csr_eq_some mat v res hv hres hst]
    rw [mulAccCsrBody_eq_scatter, csrUpdates_nil mat v hind, scatterAcc_nil]

/-! ### Workspace and compression lemmas for the matrix-matrix kernel -/

theorem wsStep_length [Ring α] (ws : List (Option α)) (t : Nat × α × α) :
    (wsStep ws t).length = ws.length := by
  unfold wsStep
  cases hg : ws.getD t.1 none <;> simp [hg]

theorem foldl_length_pres {β : Type} (f : List (Option α) → β → List (Option α))
    (hf : ∀ ws b, (f ws b).length = ws.length) (l : List β) :
    ∀ ws : List (Option α), (l.foldl f ws).length = ws.length := by
  induction l with
  | nil => intro ws; rfl
  | cons b t ih =>
    intro ws
    rw [List.foldl_cons, ih (f ws b), hf]

theorem csrRowAcc_length [Ring α] (rhs : CsMat α) (lvec : List (Nat × α))
    (n : Nat) : (csrRowAcc rhs lvec n).length = n := by
  unfold csrRowAcc
  rw [foldl_length_pres _ (fun ws rv => foldl_length_pres wsStep wsStep_length _ ws),
    List.length_replicate]

theorem compressFrom_bounds (ws : List (Option α)) :
    ∀ (i : Nat) (p : Nat × α), p ∈ compressFrom i ws →
      i ≤ p.1 ∧ p.1 < i + ws.length := by
  induction ws with
  | nil =>
    intro i p hp
    exact absurd hp (List.not_mem_nil p)
  | cons o t ih =>
    intro i p hp
    cases o with
    | none =>
      have h := ih (i + 1) p hp
      constructor
      · omega
      · simp only [List.length_cons]
        omega
    | some v =>
      rcases List.mem_cons.mp hp with h | h
      · rw [h]
        simp only [List.length_cons]
        omega
      · have h2 := ih (i + 1) p h
        constructor
        · omega
        · simp only [List.length_cons]
          omega

theorem compressFrom_pairwise (ws : List (Option α)) :
    ∀ i : Nat, List.Pairwise (· < ·) ((compressFrom i ws).map Prod.fst) := by
  induction ws with
  | nil => intro i; simp [compressFrom]
  | cons o t ih =>
    intro i
    cases o with
    | none => exact ih (i + 1)
    | some v =>
      show List.Pairwise (· < ·) ((i, v).1 :: (compressFrom (i + 1) t).map Prod.fst)
      rw [List.pairwise_cons]
      refine ⟨?_, ih (i + 1)⟩
      intro a ha
      rcases List.mem_map.mp ha with ⟨q, hq, hqa⟩
      have := (compressFrom_bounds t (i + 1) q hq).1
      omega

/-- Monotonicity of `getD` values under adjacent non-decrease, up to a
bound. -/
theorem getD_mono_of_adj (l : List Nat) (D : Nat)
    (hadj : ∀ i, i < D → l.getD i 0 ≤ l.getD (i + 1) 0) :
    ∀ b, b ≤ D → ∀ a, a ≤ b → l.getD a 0 ≤ l.getD b 0 := by
  intro b
  induction b with
  | zero =>
    intro _ a ha
    have : a = 0 := Nat.le_zero.mp ha
    rw [this]
  | succ k ih =>
    intro hkD a ha
    by_cases hak : a = k + 1
    · rw [hak]
    · have ha' : a ≤ k := by omega
      exact le_trans (ih (by omega) a ha') (hadj k (by omega))

/-! ### `append_outer` lemmas -/

theorem appendOuter_storage (m : CsMat α) (row : List (Option α)) :
    (m.appendOuter row).storage = m.storage := rfl

theorem appendOuter_indptr (m : CsMat α) (row : List (Option α)) :
    (m.appendOuter row).indptr =
      m.indptr ++ [m.indices.length + (compressRow row).length] := rfl

theorem appendOuter_indices (m : CsMat α) (row : List (Option α)) :
    (m.appendOuter row).indices = m.indices ++ (compressRow row).map Prod.fst :=
  rfl

theorem appendOuter_data (m : CsMat α) (row : List (Option α)) :
    (m.appendOuter row).data = m.data ++ (compressRow row).map Prod.snd := rfl

theorem appendOuter_nrows_csr (m : CsMat α) (row : List (Option α))
    (hst : m.storage = CSR) : (m.appendOuter row).nrows = m.nrows + 1 := by
  show (match m.storage with | CSR => m.nrows + 1 | CSC => m.nrows) = m.nrows + 1
  rw [hst]

theorem appendOuter_ncols_csr (m : CsMat α) (row : List (Option α))
    (hst : m.storage = CSR) : (m.appendOuter row).ncols = m.ncols := by
  show (match m.storage with | CSR => m.ncols | CSC => m.ncols + 1) = m.ncols
  rw [hst]

theorem appendOuter_outerDim (m : CsMat α) (row : List (Option α)) :
    (m.appendOuter row).outerDim = m.outerDim + 1 := by
  unfold CsMat.outerDim
  rw [appendOuter_storage]
  cases hst : m.storage with
  | CSR =>
    show (m.appendOuter row).nrows = m.nrows + 1
    exact appendOuter_nrows_csr m row hst
  | CSC =>
    show (m.appendOuter row).ncols = m.ncols + 1
    show (match m.storage with | CSR => m.ncols | CSC => m.ncols + 1) =
      m.ncols + 1
    rw [hst]

theorem appendOuter_innerDim (m : CsMat α) (row : List (Option α)) :
    (m.appendOuter row).innerDim = m.innerDim := by
  unfold CsMat.innerDim
  rw [appendOuter_storage]
  cases hst : m.storage with
  | CSR =>
    show (match m.storage with | CSR => m.ncols | CSC => m.ncols + 1) = m.ncols
    rw [hst]
  | CSC =>
    show (match m.storage with | CSR => m.nrows + 1 | CSC => m.nrows) = m.nrows
    rw [hst]

/-- The zipped index/value sequence of an appended matrix splits into the
old sequence followed by the compressed row. -/
theorem appendOuter_zip (m : CsMat α) (row : List (Option α))
    (hlen : m.indices.length = m.data.length) :
    (m.appendOuter row).indices.zip (m.appendOuter row).data =
      m.indices.zip m.data ++ compressRow row := by
  rw [appendOuter_indices, appendOuter_data, List.zip_append hlen,
    List.zip_map']
  congr 1
  have : (fun p : Nat × α => (p.1, p.2)) = fun p : Nat × α => p := by
    funext p
    rfl
  rw [this]
  exact List.map_id _

/-- Appending an outer slice leaves the existing outer slices unchanged. -/
theorem appendOuter_outerVec_old (m : CsMat α) (row : List (Option α))
    (hv : m.valid) (i : Nat) (hi : i < m.outerDim) :
    (m.appendOuter row).outerVec i = m.outerVec i := by
  have h1 := hv.1
  have h3 := hv.2.2.1
  have h4 := hv.2.2.2.1
  have h5 := hv.2.2.2.2.1
  unfold CsMat.outerVec
  rw [appendOuter_indptr]
  have hiL : i < m.indptr.length := by rw [h1]; omega
  have hi1L : i + 1 < m.indptr.length := by rw [h1]; omega
  rw [List.getD_append _ _ _ _ hiL, List.getD_append _ _ _ _ hi1L,
    appendOuter_zip m row h3]
  have hlenA : (m.indices.zip m.data).length = m.indices.length := by
    rw [List.length_zip, ← h3, min_self]
  have he : m.indptr.getD (i + 1) 0 ≤ m.indices.length := by
    rw [← h4]
    exact getD_mono_of_adj m.indptr m.outerDim h5 m.outerDim (le_refl _)
      (i + 1) hi
  rw [List.drop_append_eq_append_drop, List.take_append_eq_append_take]
  have h0 : (m.indptr.getD (i + 1) 0 - m.indptr.getD i 0) -
      ((m.indices.zip m.data).drop (m.indptr.getD i 0)).length = 0 := by
    rw [List.length_drop, hlenA]
    omega
  rw [h0, List.take_zero, List.append_nil]

/-- The newly appended outer slice is exactly the compressed row. -/
theorem appendOuter_outerVec_new (m : CsMat α) (row : List (Option α))
    (hv : m.valid) :
    (m.appendOuter row).outerVec m.outerDim = compressRow row := by
  have h1 := hv.1
  have h3 := hv.2.2.1
  have h4 := hv.2.2.2.1
  unfold CsMat.outerVec
  rw [appendOuter_indptr]
  have hD : m.outerDim < m.indptr.length := by rw [h1]; omega
  have hlast : (m.indptr ++ [m.indices.length + (compressRow row).length]).getD
      (m.outerDim + 1) 0 = m.indices.length + (compressRow row).length := by
    rw [List.getD_append_right _ _ _ _ (by rw [h1])]
    rw [h1]
    simp
  rw [List.getD_append _ _ _ _ hD, hlast, h4, appendOuter_zip m row h3]
  have hlenA : (m.indices.zip m.data).length = m.indices.length := by
    rw [List.length_zip, ← h3, min_self]
  rw [Nat.add_sub_cancel_left, ← hlenA, List.drop_left, List.take_length]

/-- Appending a conforming row to a valid matrix yields a valid matrix. -/
theorem appendOuter_valid (m : CsMat α) (row : List (Option α)) (hv : m.valid)
    (hrow : row.length = m.innerDim) : (m.appendOuter row).valid := by
  have h1 := hv.1
  have h2 := hv.2.1
  have h3 := hv.2.2.1
  have h4 := hv.2.2.2.1
  have h5 := hv.2.2.2.2.1
  have h6 := hv.2.2.2.2.2.1
  have h7 := hv.2.2.2.2.2.2
  have hlast : (m.indptr ++ [m.indices.length + (compressRow row).length]).getD
      (m.outerDim + 1) 0 = m.indices.length + (compressRow row).length := by
    rw [List.getD_append_right _ _ _ _ (by rw [h1])]
    rw [h1]
    simp
  refine ⟨?_, ?_, ?_, ?_, ?_, ?_, ?_⟩
  · rw [appendOuter_indptr, List.length_append, appendOuter_outerDim, h1]
    rfl
  · rw [appendOuter_indptr, List.getD_append _ _ _ _ (by rw [h1]; omega)]
    exact h2
  · rw [appendOuter_indices, appendOuter_data]
    simp [h3]
  · rw [appendOuter_outerDim, appendOuter_indptr, appendOuter_indices, hlast,
      List.length_append, List.length_map]
  · intro i hi
    rw [appendOuter_outerDim] at hi
    rw [appendOuter_indptr]
    by_cases hiD : i < m.outerDim
    · rw [List.getD_append _ _ _ _ (by rw [h1]; omega),
        List.getD_append _ _ _ _ (by rw [h1]; omega)]
      exact h5 i hiD
    · have hieq : i = m.outerDim := by omega
      rw [hieq, List.getD_append _ _ _ _ (by rw [h1]; omega), hlast, h4]
      exact Nat.le_add_right _ _
  · intro j hj
    rw [appendOuter_indices] at hj
    rw [appendOuter_innerDim]
    rcases List.mem_append.mp hj with h | h
    · exact h6 j h
    · rcases List.mem_map.mp h with ⟨q, hq, hqj⟩
      have hb := (compressFrom_bounds row 0 q hq).2
      rw [← hqj]
      omega
  · intro i hi
    rw [appendOuter_outerDim] at hi
    by_cases hiD : i < m.outerDim
    · rw [appendOuter_outerVec_old m row hv i hiD]
      exact h7 i hiD
    · have hieq : i = m.outerDim := by omega
      rw [hieq, appendOuter_outerVec_new m row hv]
      exact compressFrom_pairwise row 0

/-- The empty row-major matrix satisfies the container invariants. -/
theorem empty_csr_valid (c : Nat) : (CsMat.empty CSR c : CsMat α).valid := by
  refine ⟨rfl, rfl, rfl, rfl, ?_, ?_, ?_⟩
  · intro i hi
    exact absurd hi (Nat.not_lt_zero i)
  · intro j hj
    exact absurd hj (List.not_mem_nil j)
  · intro i hi
    exact absurd hi (Nat.not_lt_zero i)

/-- Shape of a fold of `appendOuter` steps over a row-major matrix. -/
theorem foldl_appendOuter_csr_shape (rows : List (List (Option α))) :
    ∀ m0 : CsMat α, m0.storage = CSR →
      (rows.foldl CsMat.appendOuter m0).storage = CSR ∧
      (rows.foldl CsMat.appendOuter m0).nrows = m0.nrows + rows.length ∧
      (rows.foldl CsMat.appendOuter m0).ncols = m0.ncols := by
  induction rows with
  | nil =>
    intro m0 h
    exact ⟨h, rfl, rfl⟩
  | cons row t ih =>
    intro m0 h
    rw [List.foldl_cons]
    obtain ⟨a, b, c⟩ := ih (m0.appendOuter row)
      (by rw [appendOuter_storage]; exact h)
    refine ⟨a, ?_, ?_⟩
    · rw [b, appendOuter_nrows_csr m0 row h, List.length_cons]
      omega
    · rw [c, appendOuter_ncols_csr m0 row h]

/-- A fold of `appendOuter` steps over conforming rows preserves the
container invariants. -/
theorem foldl_appendOuter_valid (rows : List (List (Option α))) :
    ∀ m0 : CsMat α, m0.valid → (∀ row ∈ rows, row.length = m0.innerDim) →
      (rows.foldl CsMat.appendOuter m0).valid := by
  induction rows with
  | nil =>
    intro m0 hv _
    exact hv
  | cons row t ih =>
    intro m0 hv hrows
    rw [List.foldl_cons]
    apply ih (m0.appendOuter row)
    · exact appendOuter_valid m0 row hv (hrows row (List.mem_cons_self row t))
    · intro r hr
      rw [appendOuter_innerDim]
      exact hrows r (List.mem_cons_of_mem row hr)

theorem buildRows_storage [Ring α] (cols : Nat)
    (rows : List (List (Option α))) :
    (buildRows (α := α) cols rows).storage = CSR :=
  (foldl_appendOuter_csr_shape rows (CsMat.empty CSR cols) rfl).1

theorem buildRows_nrows [Ring α] (cols : Nat)
    (rows : List (List (Option α))) :
    (buildRows (α := α) cols rows).nrows = rows.length := by
  have h := (foldl_appendOuter_csr_shape rows (CsMat.empty CSR cols) rfl).2.1
  rw [show (CsMat.empty CSR cols : CsMat α).nrows = 0 from rfl, Nat.zero_add]
    at h
  exact h

theorem buildRows_ncols [Ring α] (cols : Nat)
    (rows : List (List (Option α))) :
    (buildRows (α := α) cols rows).ncols = cols :=
  (foldl_appendOuter_csr_shape rows (CsMat.empty CSR cols) rfl).2.2

theorem buildRows_valid [Ring α] (cols : Nat) (rows : List (List (Option α)))
    (hlen : ∀ row ∈ rows, row.length = cols) :
    (buildRows (α := α) cols rows).valid :=
  foldl_appendOuter_valid rows (CsMat.empty CSR cols) (empty_csr_valid cols)
    hlen

theorem buildRows_outerDim [Ring α] (cols : Nat)
    (rows : List (List (Option α))) :
    (buildRows (α := α) cols rows).outerDim = rows.length := by
  rw [outerDim_csr _ (buildRows_storage cols rows)]
  exact buildRows_nrows cols rows

/-- Each outer slice of the built matrix is the compressed contents of
the corresponding accumulated row. -/
theorem buildRows_outerVec [Ring α] (cols : Nat)
    (rows : List (List (Option α))) (hlen : ∀ row ∈ rows, row.length = cols) :
    ∀ i, i < rows.length →
      (buildRows (α := α) cols rows).outerVec i = compressRow (rows.getD i []) := by
  induction rows using List.reverseRecOn with
  | nil =>
    intro i hi
    exact absurd hi (Nat.not_lt_zero i)
  | append_singleton rs row ih =>
    intro i hi
    have hlen' : ∀ r ∈ rs, r.length = cols := fun r hr =>
      hlen r (List.mem_append.mpr (Or.inl hr))
    have hb : buildRows (α := α) cols (rs ++ [row]) =
        (buildRows cols rs).appendOuter row := by
      unfold buildRows
      rw [List.foldl_concat]
    have hvb : (buildRows (α := α) cols rs).valid := buildRows_valid cols rs hlen'
    have hD : (buildRows (α := α) cols rs).outerDim = rs.length :=
      buildRows_outerDim cols rs
    have hi' : i < rs.length + 1 := by
      rw [List.length_append, List.length_cons, List.length_nil] at hi
      omega
    rcases Nat.lt_succ_iff_lt_or_eq.mp hi' with h | h
    · rw [hb, appendOuter_outerVec_old _ row hvb i (by rw [hD]; exact h),
        ih hlen' i h, List.getD_append _ _ _ _ h]
    · rw [hb, h, ← hD, appendOuter_outerVec_new _ row hvb, hD,
        List.getD_append_right _ _ _ _ (le_refl _)]
      simp

/-- The paired fold of `csr_mul_csr`'s loop decomposes into a fold
building the matrix and a fold retaining the last accumulator. -/
theorem csrMulFold_gen [Ring α] (rhs : CsMat α) (n : Nat)
    (l : List (Nat × List (Nat × α))) :
    ∀ (m0 : CsMat α) (w0 : List (Option α)),
      l.foldl (fun acc lv =>
          (acc.1.appendOuter (csrRowAcc rhs lv.2 n), csrRowAcc rhs lv.2 n))
        (m0, w0) =
      ((l.map (fun lv => csrRowAcc rhs lv.2 n)).foldl CsMat.appendOuter m0,
        (l.map (fun lv => csrRowAcc rhs lv.2 n)).foldl (fun _ row => row) w0) := by
  induction l with
  | nil =>
    intro m0 w0
    rfl
  | cons x t ih =>
    intro m0 w0
    rw [List.foldl_cons, List.map_cons, List.foldl_cons, List.foldl_cons]
    exact ih _ _

/-- The main loop of `csr_mul_csr`, decomposed: the result matrix is the
per-row accumulators compressed and appended in order, and the final
workspace is the last accumulator (or the input workspace when there are
no rows). -/
theorem csrMulFold_eq [Ring α] (lhs rhs : CsMat α) (ws : List (Option α))
    (hlst : lhs.storage_type = CSR) :
    csrMulFold lhs rhs ws =
      (buildRows rhs.cols (csrRowsList lhs rhs ws.length),
        (csrRowsList lhs rhs ws.length).foldl (fun _ row => row) ws) := by
  unfold csrMulFold
  rw [hlst]
  show lhs.outerIterator.foldl
      (fun acc lv => (acc.1.appendOuter (csrRowAcc rhs lv.2 ws.length),
        csrRowAcc rhs lv.2 ws.length))
      (CsMat.empty CSR rhs.cols, ws) = _
  rw [csrMulFold_gen]
  unfold buildRows csrRowsList CsMat.outerIterator
  rw [List.map_map]
  rfl

/-- `csr_mul_csr` under its preconditions: the result decomposed into the
appended compressed rows and the final workspace state. -/
theorem csr_mul_csr_decomp [Ring α] (lhs rhs : CsMat α) (ws : List (Option α))
    (h1 : lhs.cols = rhs.rows) (h2 : rhs.cols = ws.length)
    (h3 : lhs.storage_type = rhs.storage_type) (h4 : CSR = rhs.storage_type) :
    csr_mul_csr lhs rhs ws =
      some (buildRows rhs.cols (csrRowsList lhs rhs ws.length),
        (csrRowsList lhs rhs ws.length).foldl (fun _ row => row) ws) := by
  have hlst : lhs.storage_type = CSR := by rw [h3, ← h4]
  have hrows : (buildRows (α := α) rhs.cols
      (csrRowsList lhs rhs ws.length)).rows = lhs.rows := by
    show (buildRows (α := α) rhs.cols
      (csrRowsList lhs rhs ws.length)).nrows = lhs.rows
    rw [buildRows_nrows]
    unfold csrRowsList
    rw [List.length_map, List.length_range]
    exact outerDim_csr lhs hlst
  unfold csr_mul_csr
  rw [if_pos h1, if_pos h2, if_pos h3, if_pos h4]
  show (if lhs.rows = (csrMulFold lhs rhs ws).1.rows
    then some (csrMulFold lhs rhs ws) else none) = _
  rw [csrMulFold_eq lhs rhs ws hlst]
  rw [if_pos hrows.symm]

/-! ### Claim theorems: matrix-matrix kernel -/

/-- C10: under the preconditions of `csr_mul_csr` the returned matrix is
itself a well-formed row-major compressed matrix — non-decreasing outer
pointers whose final entry is the nonzero count, in-bounds and strictly
ascending inner indices per row — with the left operand's row count and
the right operand's column count. -/
theorem csr_mul_csr_result_valid [Ring α] (lhs rhs : CsMat α)
    (ws : List (Option α)) (_hlv : lhs.valid) (_hrv : rhs.valid)
    (h1 : lhs.cols = rhs.rows) (h2 : rhs.cols = ws.length)
    (h3 : lhs.storage_type = rhs.storage_type) (h4 : CSR = rhs.storage_type) :
    ∃ m wsOut, csr_mul_csr lhs rhs ws = some (m, wsOut) ∧
      m.valid ∧ m.storage_type = CSR ∧ m.rows = lhs.rows ∧
      m.cols = rhs.cols := by
  have hlst : lhs.storage_type = CSR := by rw [h3, ← h4]
  have hlen : ∀ row ∈ csrRowsList lhs rhs ws.length,
      row.length = rhs.cols := by
    intro row hrow
    unfold csrRowsList at hrow
    rcases List.mem_map.mp hrow with ⟨i, _, hrow2⟩
    rw [← hrow2, csrRowAcc_length, h2]
  refine ⟨_, _, csr_mul_csr_decomp lhs rhs ws h1 h2 h3 h4, ?_, ?_, ?_, ?_⟩
  · exact buildRows_valid rhs.cols _ hlen
  · exact buildRows_storage rhs.cols _
  · show (buildRows (α := α) rhs.cols
      (csrRowsList lhs rhs ws.length)).nrows = lhs.rows
    rw [buildRows_nrows]
    unfold csrRowsList
    rw [List.length_map, List.length_range]
    exact outerDim_csr lhs hlst
  · exact buildRows_ncols rhs.cols _

/-- Witness for C10 at a concrete 1 × 1 product. -/
theorem csr_mul_csr_result_valid_witness :
    ∃ m wsOut, csr_mul_csr exOne exOne [none] = some (m, wsOut) ∧
      m.valid ∧ m.storage_type = CSR ∧ m.rows = exOne.rows ∧
      m.cols = exOne.cols :=
  csr_mul_csr_result_valid exOne exOne [none] (by decide) (by decide)
    rfl rfl rfl rfl

/-- C9 counterexample: after `csr_mul_csr exOne exOne [none]` returns,
the workspace holds `[some 1]` — the last row's accumulator — not the
all-empty `[none]` that the claim's "no residual state once the call
returns" would require. -/
theorem csr_mul_csr_workspace_residual_counterexample :
    (csr_mul_csr exOne exOne [none]).map (fun p => p.2) = some [some 1] ∧
      (csr_mul_csr exOne exOne [none]).map (fun p => p.2) ≠ some [none] := by
  decide

/-- C9 (amended): every workspace slot is reset to empty at the start of
each row's computation — so the result matrix does not depend on the
incoming workspace contents, and row `i` of the result is the compressed
contents of row `i`'s accumulator built from an all-empty workspace (all
accumulated values are drained into the output); however, once the call
returns the workspace retains the last row's accumulators instead of
being cleared. -/
theorem csr_mul_csr_workspace_amended [Ring α] (lhs rhs : CsMat α)
    (ws : List (Option α)) (_hlv : lhs.valid) (_hrv : rhs.valid)
    (h1 : lhs.cols = rhs.rows) (h2 : rhs.cols = ws.length)
    (h3 : lhs.storage_type = rhs.storage_type) (h4 : CSR = rhs.storage_type)
    (hpos : 0 < lhs.rows) :
    ∃ m, csr_mul_csr lhs rhs ws =
        some (m, csrRowAcc rhs (lhs.outerVec (lhs.rows - 1)) ws.length) ∧
      (∀ i, i < lhs.rows →
        m.outerVec i = compressRow (csrRowAcc rhs (lhs.outerVec i) ws.length)) ∧
      (∀ ws2 : List (Option α), ws2.length = ws.length →
        (csr_mul_csr lhs rhs ws2).map Prod.fst = some m) := by
  have hlst : lhs.storage_type = CSR := by rw [h3, ← h4]
  have hD : lhs.outerDim = lhs.rows := outerDim_csr lhs hlst
  have hlen : ∀ row ∈ csrRowsList lhs rhs ws.length,
      row.length = rhs.cols := by
    intro row hrow
    unfold csrRowsList at hrow
    rcases List.mem_map.mp hrow with ⟨i, _, hrow2⟩
    rw [← hrow2, csrRowAcc_length, h2]
  have hws : (csrRowsList lhs rhs ws.length).foldl (fun _ row => row) ws =
      csrRowAcc rhs (lhs.outerVec (lhs.rows - 1)) ws.length := by
    unfold csrRowsList
    rw [show lhs.outerDim = (lhs.rows - 1) + 1 from by omega,
      List.range_succ, List.map_append, List.foldl_append]
    rfl
  refine ⟨buildRows rhs.cols (csrRowsList lhs rhs ws.length), ?_, ?_, ?_⟩
  · rw [csr_mul_csr_decomp lhs rhs ws h1 h2 h3 h4, hws]
  · intro i hi
    have hiL : i < (csrRowsList (α := α) lhs rhs ws.length).length := by
      unfold csrRowsList
      rw [List.length_map, List.length_range]
      omega
    rw [buildRows_outerVec rhs.cols (csrRowsList lhs rhs ws.length) hlen i hiL]
    congr 1
    unfold csrRowsList
    rw [List.getD_eq_getElem _ _ (by rw [List.length_map, List.length_range]; omega),
      List.getElem_map, List.getElem_range]
  · intro ws2 hws2
    rw [csr_mul_csr_decomp lhs rhs ws2 h1 (by rw [h2, hws2]) h3 h4, hws2]
    rfl

/-- Witness for the amended C9 at a concrete 1 × 1 product. -/
theorem csr_mul_csr_workspace_amended_witness :
    ∃ m, csr_mul_csr exOne exOne [none] =
        some (m, csrRowAcc exOne (exOne.outerVec (exOne.rows - 1))
          ([(none : Option Int)] : List (Option Int)).length) ∧
      (∀ i, i < exOne.rows →
        m.outerVec i = compressRow (csrRowAcc exOne (exOne.outerVec i)
          ([(none : Option Int)] : List (Option Int)).length)) ∧
      (∀ ws2 : List (Option Int),
        ws2.length = ([(none : Option Int)] : List (Option Int)).length →
        (csr_mul_csr exOne exOne ws2).map Prod.fst = some m) :=
  csr_mul_csr_workspace_amended exOne exOne [none] (by decide) (by decide)
    rfl rfl rfl rfl (by decide)

/-- C1 (refuted, code bug): at the concrete pair `exL`, `exR` the kernel
returns the zero matrix — its (0, 0) entry is 0 — while the standard
matrix product `exL * exR` has entry 1 there: the source merges the left
row against every row of the right operand by matching column indices,
instead of selecting the right operand's row whose index equals the left
entry's column. -/
theorem csr_mul_csr_not_matrix_product :
    (csr_mul_csr exL exR [none, none]).map (fun p => p.1.entry 0 0) =
        some 0 ∧
      matProdEntry exL exR 0 0 = 1 ∧ (0 : Int) ≠ 1 := by
  decide

/-- Witness for C7: 2 × 2 zero matrices in both storage orders leave the
buffer `[7, 8]` untouched. -/
theorem zero_matrix_leaves_output_witness :
    mul_acc_mat_vec_csc exZeroCsc [1, 2] [7, 8] = some [7, 8] ∧
    mul_acc_mat_vec_csr exZeroCsr [1, 2] [7, 8] = some [7, 8] :=
  ⟨(zero_matrix_leaves_output exZeroCsc [1, 2] [7, 8] (by decide) rfl rfl
      rfl rfl).1 rfl,
   (zero_matrix_leaves_output exZeroCsr [1, 2] [7, 8] (by decide) rfl rfl
      rfl rfl).2 rfl⟩

end SprsProd
